import Mathlib

/-!
Shallow embedding of the `timed-queue` crate (`src/lib.rs`).

The crate stores items in a `BinaryHeap<Item<T>>` (a max-heap) whose key is
`expiration : Reverse<Option<Instant>>` followed by the payload `inner : T`,
using the derived lexicographic `Ord`.  We model `Instant` as `Nat` (a
monotonic clock value), `Duration` as `Nat` (all subtractions in the source
occur only when the result is non-negative), and the heap as a `List` of
items whose only observable operations are `push` (cons) and removal of a
maximal element under the derived item order.  `peek_inner` in the source
peeks at the maximal element, decides readiness against `Instant::now()`,
and pops that same maximal element when ready; our `peek_inner` fuses the
peek and the pop, returning the post-state explicitly (on the error path the
source never mutates the heap, so the post-state is the input heap).
-/

/-- Decidable equality for `Except`, used to evaluate `peek_inner` results
on concrete inputs. -/
instance {ε α : Type} [DecidableEq ε] [DecidableEq α] : DecidableEq (Except ε α) :=
  fun a b =>
    match a, b with
    | Except.ok x, Except.ok y => decidable_of_iff (x = y) (by simp)
    | Except.error x, Except.error y => decidable_of_iff (x = y) (by simp)
    | Except.ok _, Except.error _ => isFalse fun h => by cases h
    | Except.error _, Except.ok _ => isFalse fun h => by cases h

namespace TimedQueue

/-- One heap entry: `struct Item<T> { expiration: Reverse<Option<Instant>>, inner: T }`.
We store the `Option Nat` directly; the `Reverse` wrapper is reflected in
`itemLtB` below. -/
structure Item (T : Type) where
  expiration : Option Nat
  inner : T
  deriving DecidableEq

variable {T : Type} [LinearOrder T]

/-- Rust's derived `Ord` on `Option<Instant>`: `None` is less than every
`Some`, and `Some` compares by the wrapped time. -/
def optLtB : Option Nat → Option Nat → Bool
  | none, none => false
  | none, some _ => true
  | some _, none => false
  | some a, some b => decide (a < b)

/-- Rust's derived `Ord` on `Item<T>`: lexicographic on
`(Reverse(expiration), inner)`.  `Reverse` flips the option comparison, so
`a < b` iff `b.expiration < a.expiration` in option order, or the
expirations are equal and `a.inner < b.inner`. -/
def itemLtB (a b : Item T) : Bool :=
  optLtB b.expiration a.expiration ||
    (decide (a.expiration = b.expiration) && decide (a.inner < b.inner))

/-- Removal of a maximal element, the observable behaviour of
`BinaryHeap::pop`: returns a maximal item (under the derived item order)
together with the remaining items, or `none` on the empty heap. -/
def heapPop : List (Item T) → Option (Item T × List (Item T))
  | [] => none
  | x :: xs =>
    match heapPop xs with
    | none => some (x, [])
    | some (m, r) => if itemLtB x m then some (m, x :: r) else some (x, xs)

/-- `TimedQueue::enqueue`: push one item onto the heap (order of insertion
is unobservable through `heapPop`, so push is modelled as cons). -/
def enqueue (heap : List (Item T)) (t : T) (expiration : Option Nat) : List (Item T) :=
  { expiration := expiration, inner := t } :: heap

/-- A sequence of `enqueue` calls, first element enqueued first. -/
def enqueueAll (heap : List (Item T)) (xs : List (T × Option Nat)) : List (Item T) :=
  xs.foldl (fun h p => enqueue h p.1 p.2) heap

/-- `TimedQueue::peek_inner`: under the lock, look at the heap's maximal
item (the entry with the earliest effective release time).  If its release
time is `Some(expiration)` with `expiration < now` it is ready; if the
release time is `None` it is ready unconditionally; otherwise report the
remaining wait (`Err(Some(expiration - now))`), or `Err(None)` when the
heap is empty.  A ready item is popped and returned with its release time.
The second component is the heap after the call. -/
def peek_inner (now : Nat) (heap : List (Item T)) :
    Except (Option Nat) (T × Option Nat) × List (Item T) :=
  match heapPop heap with
  | none => (Except.error none, heap)
  | some (m, rest) =>
    match m.expiration with
    | some expiration =>
      if expiration < now then (Except.ok (m.inner, some expiration), rest)
      else (Except.error (some (expiration - now)), heap)
    | none => (Except.ok (m.inner, none), rest)

/-- The three ways one iteration of the `dequeue` loop can continue:
return an item, await the notify signal under a timeout, or await the
notify signal with no timeout. -/
inductive DequeueStep (T : Type) where
  | ret : T → Option Nat → List (Item T) → DequeueStep T
  | waitTimeout : Nat → DequeueStep T
  | waitForever : DequeueStep T
  deriving DecidableEq

/-- One iteration of the loop in `TimedQueue::dequeue`: dispatch on the
result of `peek_inner`. -/
def dequeueStep (now : Nat) (heap : List (Item T)) : DequeueStep T :=
  match peek_inner now heap with
  | (Except.ok (x, e), rest) => DequeueStep.ret x e rest
  | (Except.error (some d), _) => DequeueStep.waitTimeout d
  | (Except.error none, _) => DequeueStep.waitForever

/-- An item whose release time has passed as of `now` (its release time is
`None`, or `Some t` with `t < now`). -/
def readyB (now : Nat) (it : Item T) : Bool :=
  match it.expiration with
  | none => true
  | some t => decide (t < now)

/-- Readiness of an `(payload, release time)` pair, for stating properties
over sequences of `enqueue` arguments. -/
def readyPairB (now : Nat) (p : T × Option Nat) : Bool :=
  match p.2 with
  | none => true
  | some t => decide (t < now)

/-- Repeated `dequeue` calls at a fixed time `now`: collect the results of
successive successful `peek_inner` calls, stopping at the first failure or
when the fuel runs out. -/
def drain : Nat → Nat → List (Item T) → List (T × Option Nat)
  | 0, _, _ => []
  | Nat.succ fuel, now, heap =>
    match peek_inner now heap with
    | (Except.ok p, rest) => p :: drain fuel now rest
    | (Except.error _, _) => []

/-- Effective release-time order: `none` (ready immediately) is earliest,
`some` times compare by value.  `effLe a b` says `a`'s effective time is no
later than `b`'s. -/
def effLe (a b : Option Nat) : Prop := optLtB b a = false

theorem optLtB_irrefl (a : Option Nat) : optLtB a a = false := by
  cases a <;> simp [optLtB]

theorem optLtB_asymm {a b : Option Nat} (h : optLtB a b = true) : optLtB b a = false := by
  cases a <;> cases b <;> simp_all [optLtB] <;> omega

theorem optLtB_false_trans {a b c : Option Nat} (hab : optLtB a b = false)
    (hbc : optLtB b c = false) : optLtB a c = false := by
  cases a <;> cases b <;> cases c <;> simp_all [optLtB] <;> omega

theorem optLtB_antisymm {a b : Option Nat} (hab : optLtB a b = false)
    (hba : optLtB b a = false) : a = b := by
  cases a <;> cases b <;> simp_all [optLtB] <;> omega

theorem optLtB_none_right (a : Option Nat) : optLtB a none = false := by
  cases a <;> simp [optLtB]

theorem eq_none_of_optLtB_none {a : Option Nat} (h : optLtB none a = false) : a = none := by
  cases a <;> simp_all [optLtB]

theorem itemLtB_irrefl (x : Item T) : itemLtB x x = false := by
  simp [itemLtB, optLtB_irrefl]

theorem itemLtB_asymm {x y : Item T} (h : itemLtB x y = true) : itemLtB y x = false := by
  simp only [itemLtB, Bool.or_eq_true, Bool.and_eq_true, decide_eq_true_eq,
    Bool.or_eq_false_iff, Bool.and_eq_false_iff, decide_eq_false_iff_not] at h ⊢
  rcases h with h | ⟨he, hi⟩
  · refine ⟨optLtB_asymm h, Or.inl fun hyx => ?_⟩
    rw [hyx] at h
    simp [optLtB_irrefl] at h
  · rw [he]
    exact ⟨optLtB_irrefl _, Or.inr (lt_asymm hi)⟩

theorem itemLtB_false_trans {x m y : Item T} (h1 : itemLtB x m = false)
    (h2 : itemLtB m y = false) : itemLtB x y = false := by
  simp only [itemLtB, Bool.or_eq_false_iff, Bool.and_eq_false_iff,
    decide_eq_false_iff_not] at h1 h2 ⊢
  obtain ⟨h1o, h1i⟩ := h1
  obtain ⟨h2o, h2i⟩ := h2
  refine ⟨optLtB_false_trans h2o h1o, ?_⟩
  by_contra hcon
  push_neg at hcon
  obtain ⟨hxy, hlt⟩ := hcon
  have hme : y.expiration = m.expiration := by
    refine optLtB_antisymm h2o ?_
    rw [← hxy]
    exact h1o
  have hxm : x.expiration = m.expiration := hxy.trans hme
  have hmx : m.inner ≤ x.inner := by
    rcases h1i with h | h
    · exact absurd hxm h
    · exact not_lt.mp h
  have hym : y.inner ≤ m.inner := by
    rcases h2i with h | h
    · exact absurd hme.symm h
    · exact not_lt.mp h
  exact absurd hlt (not_lt.mpr (hym.trans hmx))

theorem heapPop_eq_none_iff {l : List (Item T)} : heapPop l = none ↔ l = [] := by
  cases l with
  | nil => simp [heapPop]
  | cons x xs =>
    simp only [heapPop]
    cases h : heapPop xs with
    | none => simp
    | some p =>
      obtain ⟨m, r⟩ := p
      by_cases hx : itemLtB x m <;> simp [hx]

theorem heapPop_perm {l : List (Item T)} {m : Item T} {r : List (Item T)}
    (h : heapPop l = some (m, r)) : l.Perm (m :: r) := by
  induction l generalizing m r with
  | nil => simp [heapPop] at h
  | cons x xs ih =>
    cases hxs : heapPop xs with
    | none =>
      have hnil : xs = [] := heapPop_eq_none_iff.mp hxs
      subst hnil
      simp only [heapPop, Option.some.injEq, Prod.mk.injEq] at h
      obtain ⟨h1, h2⟩ := h
      subst h1
      subst h2
      exact List.Perm.refl _
    | some p =>
      obtain ⟨m1, r1⟩ := p
      simp only [heapPop, hxs] at h
      by_cases hx : itemLtB x m1 = true
      · rw [if_pos hx] at h
        simp only [Option.some.injEq, Prod.mk.injEq] at h
        obtain ⟨h1, h2⟩ := h
        subst h1
        subst h2
        exact ((ih hxs).cons x).trans (List.Perm.swap m1 x r1)
      · rw [if_neg hx] at h
        simp only [Option.some.injEq, Prod.mk.injEq] at h
        obtain ⟨h1, h2⟩ := h
        subst h1
        subst h2
        exact List.Perm.refl _

theorem heapPop_max {l : List (Item T)} {m : Item T} {r : List (Item T)}
    (h : heapPop l = some (m, r)) : ∀ y ∈ l, itemLtB m y = false := by
  induction l generalizing m r with
  | nil => simp [heapPop] at h
  | cons x xs ih =>
    cases hxs : heapPop xs with
    | none =>
      have hnil : xs = [] := heapPop_eq_none_iff.mp hxs
      subst hnil
      simp only [heapPop, Option.some.injEq, Prod.mk.injEq] at h
      obtain ⟨h1, h2⟩ := h
      subst h1
      intro y hy
      rw [List.mem_singleton.mp hy]
      exact itemLtB_irrefl _
    | some p =>
      obtain ⟨m1, r1⟩ := p
      simp only [heapPop, hxs] at h
      by_cases hx : itemLtB x m1 = true
      · rw [if_pos hx] at h
        simp only [Option.some.injEq, Prod.mk.injEq] at h
        obtain ⟨h1, h2⟩ := h
        subst h1
        intro y hy
        rcases List.mem_cons.mp hy with hy | hy
        · rw [hy]
          exact itemLtB_asymm hx
        · exact ih hxs y hy
      · rw [if_neg hx] at h
        simp only [Option.some.injEq, Prod.mk.injEq] at h
        obtain ⟨h1, h2⟩ := h
        subst h1
        intro y hy
        rcases List.mem_cons.mp hy with hy | hy
        · rw [hy]
          exact itemLtB_irrefl _
        · exact itemLtB_false_trans (Bool.not_eq_true _ ▸ hx) (ih hxs y hy)

theorem heapPop_length {l : List (Item T)} {m : Item T} {r : List (Item T)}
    (h : heapPop l = some (m, r)) : l.length = r.length + 1 :=
  (heapPop_perm h).length_eq

theorem enqueueAll_eq (xs : List (T × Option Nat)) :
    ∀ heap : List (Item T),
      enqueueAll heap xs = (xs.map fun p => Item.mk p.2 p.1).reverse ++ heap := by
  induction xs with
  | nil => intro heap; simp [enqueueAll]
  | cons p ps ih =>
    intro heap
    show enqueueAll (enqueue heap p.1 p.2) ps = _
    rw [ih]
    simp [enqueue]

theorem peek_inner_ready {now : Nat} {l : List (Item T)} {m : Item T}
    {rest : List (Item T)} (hp : heapPop l = some (m, rest))
    (hr : readyB now m = true) :
    peek_inner now l = (Except.ok (m.inner, m.expiration), rest) := by
  cases hme : m.expiration with
  | none => simp [peek_inner, hp, hme]
  | some t =>
    have ht : t < now := by simpa [readyB, hme] using hr
    simp [peek_inner, hp, hme, ht]

theorem drain_spec (now : Nat) :
    ∀ (n : Nat) (l : List (Item T)), l.length = n →
      (∀ y ∈ l, readyB now y = true) →
      (drain n now l).Perm (l.map fun it => (it.inner, it.expiration)) ∧
      List.Pairwise
        (fun a b => itemLtB (Item.mk a.2 a.1) (Item.mk b.2 b.1) = false)
        (drain n now l) := by
  intro n
  induction n with
  | zero =>
    intro l hlen _
    have hnil : l = [] := List.length_eq_zero.mp hlen
    subst hnil
    simp [drain]
  | succ n ih =>
    intro l hlen hready
    cases hp : heapPop l with
    | none =>
      have hnil : l = [] := heapPop_eq_none_iff.mp hp
      subst hnil
      simp at hlen
    | some p =>
      obtain ⟨m, rest⟩ := p
      have hperm := heapPop_perm hp
      have hmax := heapPop_max hp
      have hm_mem : m ∈ l := hperm.symm.subset (List.mem_cons_self m rest)
      have hrest_sub : ∀ y ∈ rest, y ∈ l := fun y hy =>
        hperm.symm.subset (List.mem_cons_of_mem m hy)
      have hpeek : peek_inner now l = (Except.ok (m.inner, m.expiration), rest) :=
        peek_inner_ready hp (hready m hm_mem)
      have hrlen : rest.length = n := by
        have := heapPop_length hp
        omega
      have hdrain : drain (n + 1) now l = (m.inner, m.expiration) :: drain n now rest := by
        simp [drain, hpeek]
      obtain ⟨ihp, ihpw⟩ := ih rest hrlen (fun y hy => hready y (hrest_sub y hy))
      constructor
      · rw [hdrain]
        have hmap : (l.map fun it => (it.inner, it.expiration)).Perm
            ((m.inner, m.expiration) :: rest.map fun it => (it.inner, it.expiration)) := by
          simpa using hperm.map fun it => (it.inner, it.expiration)
        exact (ihp.cons _).trans hmap.symm
      · rw [hdrain]
        refine List.Pairwise.cons ?_ ihpw
        intro b hb
        have hb' : b ∈ rest.map (fun it => (it.inner, it.expiration)) := ihp.subset hb
        obtain ⟨y, hy, hyb⟩ := List.mem_map.mp hb'
        subst hyb
        show itemLtB m y = false
        exact hmax y (hrest_sub y hy)

theorem optLtB_of_itemLtB_false {x y : Item T} (h : itemLtB x y = false) :
    optLtB y.expiration x.expiration = false := by
  simp only [itemLtB, Bool.or_eq_false_iff] at h
  exact h.1

theorem inner_le_of_itemLtB_false {x y : Item T} (h : itemLtB x y = false)
    (he : x.expiration = y.expiration) : y.inner ≤ x.inner := by
  simp only [itemLtB, Bool.or_eq_false_iff, Bool.and_eq_false_iff,
    decide_eq_false_iff_not] at h
  rcases h.2 with h2 | h2
  · exact absurd he h2
  · exact not_lt.mp h2

theorem length_enqueueAll_nil (xs : List (T × Option Nat)) :
    (enqueueAll ([] : List (Item T)) xs).length = xs.length := by
  rw [enqueueAll_eq]
  simp

theorem mem_enqueueAll_nil {xs : List (T × Option Nat)} {y : Item T}
    (hy : y ∈ enqueueAll ([] : List (Item T)) xs) :
    ∃ p ∈ xs, y = Item.mk p.2 p.1 := by
  rw [enqueueAll_eq] at hy
  simp only [List.append_nil, List.mem_reverse, List.mem_map] at hy
  obtain ⟨p, hp, hpy⟩ := hy
  exact ⟨p, hp, hpy.symm⟩

end TimedQueue

namespace TimedQueue

variable {T : Type} [LinearOrder T]

/-- C1 counterexample: the claim says an entry with release time `Some t` is
ready whenever `now ≥ t`, but at `now = t` (here `t = 5`) `peek_inner` tests
`expiration < now`, finds the entry not ready, and returns
`Err(Some(0))` instead of `Ok`. -/
theorem c1_counterexample :
    (5 : Nat) ≤ 5 ∧
    (peek_inner 5 ([⟨some 5, (0 : Nat)⟩] : List (Item Nat))).1 =
      Except.error (some 0) ∧
    (peek_inner 5 ([⟨some 5, (0 : Nat)⟩] : List (Item Nat))).1 ≠
      Except.ok (0, some 5) :=
  ⟨by decide, rfl, fun hp => Except.noConfusion hp⟩

/-- C1 (amended): when the minimum entry of the heap has release time
`Some t` and the current time satisfies `t < now` (strictly), `peek_inner`
finds the entry ready, removes it, and returns it with its release time. -/
theorem peek_inner_ok_of_lt {now t : Nat} {heap : List (Item T)} {m : Item T}
    {rest : List (Item T)} (hp : heapPop heap = some (m, rest))
    (hme : m.expiration = some t) (hlt : t < now) :
    peek_inner now heap = (Except.ok (m.inner, some t), rest) := by
  have hr : readyB now m = true := by simp [readyB, hme, hlt]
  have := peek_inner_ready hp hr
  rw [hme] at this
  exact this

/-- C1 witness: at `t = 5 < now = 6` the single entry is popped and
returned. -/
theorem peek_inner_ok_of_lt_witness :
    heapPop ([⟨some 5, (0 : Nat)⟩] : List (Item Nat)) =
      some (⟨some 5, 0⟩, []) ∧
    (5 : Nat) < 6 ∧
    peek_inner 6 ([⟨some 5, (0 : Nat)⟩] : List (Item Nat)) =
      (Except.ok (0, some 5), []) :=
  ⟨rfl, by decide,
    @peek_inner_ok_of_lt Nat _ 6 5 [⟨some 5, 0⟩] ⟨some 5, 0⟩ [] rfl rfl (by decide)⟩

/-- C4: after `enqueue(item, None)` on the empty queue, `peek_inner` finds
the entry ready at every current time `now` (the clock is irrelevant) and
returns `Ok((item, None))`, leaving the queue empty. -/
theorem enqueue_none_immediately_ready (now : Nat) (x : T) :
    peek_inner now (enqueue [] x none) = (Except.ok (x, none), []) := rfl

/-- C5: when the minimum entry has release time `Some t` and `now < t`,
`peek_inner` reports not-ready with wait bound exactly `t - now`, leaving
the heap untouched. -/
theorem peek_inner_not_ready {now t : Nat} {heap : List (Item T)} {m : Item T}
    {rest : List (Item T)} (hp : heapPop heap = some (m, rest))
    (hme : m.expiration = some t) (hlt : now < t) :
    peek_inner now heap = (Except.error (some (t - now)), heap) := by
  have hnlt : ¬ t < now := by omega
  simp [peek_inner, hp, hme, hnlt]

/-- C5 witness: with one entry due at `t = 5` and `now = 3`, `peek_inner`
returns `Err(Some(2))`. -/
theorem peek_inner_not_ready_witness :
    heapPop ([⟨some 5, (0 : Nat)⟩] : List (Item Nat)) =
      some (⟨some 5, 0⟩, []) ∧
    (3 : Nat) < 5 ∧
    peek_inner 3 ([⟨some 5, (0 : Nat)⟩] : List (Item Nat)) =
      (Except.error (some 2), [⟨some 5, 0⟩]) :=
  ⟨rfl, by decide,
    @peek_inner_not_ready Nat _ 3 5 [⟨some 5, 0⟩] ⟨some 5, 0⟩ [] rfl rfl (by decide)⟩

/-- C6: `peek_inner` returns `Err(None)` — and the `dequeue` loop therefore
awaits the notify signal with no timeout — exactly when the heap is empty;
on every non-empty heap the step either returns an item or waits with a
bounded timeout. -/
theorem dequeue_wait_forever_iff (now : Nat) (heap : List (Item T)) :
    ((peek_inner now heap).1 = Except.error none ↔ heap = []) ∧
    (dequeueStep now heap = DequeueStep.waitForever ↔ heap = []) := by
  cases hp : heapPop heap with
  | none =>
    have hnil : heap = [] := heapPop_eq_none_iff.mp hp
    subst hnil
    constructor <;> simp [dequeueStep, peek_inner, heapPop]
  | some p =>
    obtain ⟨m, rest⟩ := p
    have hne : heap ≠ [] := by
      intro hnil
      subst hnil
      simp [heapPop] at hp
    cases hme : m.expiration with
    | none => constructor <;> simp [dequeueStep, peek_inner, hp, hme, hne]
    | some t =>
      by_cases ht : t < now <;>
        constructor <;> simp [dequeueStep, peek_inner, hp, hme, ht, hne]

/-- C7: the entry `peek_inner` observes at the top of the heap (the one
`heapPop` would remove) has the earliest effective release time of every
entry in the store, `None` counting as earliest.  Since this holds of every
heap state, it holds in particular after every `enqueue` (push) and every
successful `dequeue` (pop). -/
theorem heap_min_earliest {heap : List (Item T)} {m : Item T}
    {rest : List (Item T)} (hp : heapPop heap = some (m, rest)) :
    ∀ y ∈ heap, effLe m.expiration y.expiration :=
  fun y hy => optLtB_of_itemLtB_false (heapPop_max hp y hy)

/-- C7 witness: in a heap holding entries due at `Some 7` and `None`, the
popped entry is the `None` one and its key is no later than both. -/
theorem heap_min_earliest_witness :
    heapPop ([⟨some 7, 0⟩, ⟨none, 1⟩] : List (Item Nat)) =
      some (⟨none, 1⟩, [⟨some 7, 0⟩]) ∧
    ∀ y ∈ ([⟨some 7, 0⟩, ⟨none, 1⟩] : List (Item Nat)),
      effLe (none : Option Nat) y.expiration :=
  ⟨rfl, @heap_min_earliest Nat _ [⟨some 7, 0⟩, ⟨none, 1⟩] ⟨none, 1⟩ [⟨some 7, 0⟩] rfl⟩

/-- C9: whenever `peek_inner` fails (`Err`, with or without a wait bound)
the store is returned exactly as it was: the failed readiness check pops
nothing and changes nothing. -/
theorem peek_inner_error_frame (now : Nat) (heap : List (Item T)) (e : Option Nat)
    (h : (peek_inner now heap).1 = Except.error e) : (peek_inner now heap).2 = heap := by
  cases hp : heapPop heap with
  | none => simp [peek_inner, hp]
  | some p =>
    obtain ⟨m, rest⟩ := p
    cases hme : m.expiration with
    | none => simp [peek_inner, hp, hme] at h
    | some t =>
      by_cases ht : t < now
      · simp [peek_inner, hp, hme, ht] at h
      · simp [peek_inner, hp, hme, ht]

/-- C9 witness: on the empty heap `peek_inner` fails with `Err(None)` and
the heap is unchanged. -/
theorem peek_inner_error_frame_witness :
    (peek_inner 0 ([] : List (Item Nat))).1 = Except.error none ∧
    (peek_inner 0 ([] : List (Item Nat))).2 = [] :=
  ⟨rfl, peek_inner_error_frame 0 [] none rfl⟩

/-- C10: whenever `peek_inner` succeeds, exactly one entry — a maximal one
under the heap order, i.e. the store's minimum by effective release time —
is removed (the new store plus that entry is a permutation of the old), and
the returned pair is that entry's payload with the very release time stored
for it at `enqueue`. -/
theorem peek_inner_ok_frame {now : Nat} {heap h2 : List (Item T)} {x : T}
    {e : Option Nat} (h : peek_inner now heap = (Except.ok (x, e), h2)) :
    ∃ m : Item T, heapPop heap = some (m, h2) ∧ m.inner = x ∧ m.expiration = e ∧
      heap.Perm (m :: h2) ∧ ∀ y ∈ heap, itemLtB m y = false := by
  cases hp : heapPop heap with
  | none => simp [peek_inner, hp] at h
  | some p =>
    obtain ⟨m, rest⟩ := p
    cases hme : m.expiration with
    | none =>
      simp only [peek_inner, hp, hme, Prod.mk.injEq, Except.ok.injEq] at h
      obtain ⟨⟨hx, he⟩, hrest⟩ := h
      subst hx
      subst he
      subst hrest
      exact ⟨m, rfl, rfl, hme, heapPop_perm hp, heapPop_max hp⟩
    | some t =>
      by_cases ht : t < now
      · simp only [peek_inner, hp, hme, ht, if_true, Prod.mk.injEq,
          Except.ok.injEq] at h
        obtain ⟨⟨hx, he⟩, hrest⟩ := h
        subst hx
        subst he
        subst hrest
        exact ⟨m, rfl, rfl, hme, heapPop_perm hp, heapPop_max hp⟩
      · simp [peek_inner, hp, hme, ht] at h

/-- C2: enqueue payloads with release times `t1..tn` into an empty queue;
once every `Some` time has passed, repeated dequeues return exactly the
enqueued pairs (a permutation of the inputs), with the release-time keys in
non-decreasing effective order and every `None`-release item before any
`Some`-release item. -/
theorem dequeue_order (now : Nat) (xs : List (T × Option Nat))
    (hready : ∀ p ∈ xs, readyPairB now p = true) :
    (drain xs.length now (enqueueAll [] xs)).Perm xs ∧
    List.Sorted effLe ((drain xs.length now (enqueueAll [] xs)).map Prod.snd) ∧
    List.Pairwise (fun a b => b.2 = none → a.2 = none)
      (drain xs.length now (enqueueAll [] xs)) := by
  have hlen : (enqueueAll ([] : List (Item T)) xs).length = xs.length :=
    length_enqueueAll_nil xs
  have hready' : ∀ y ∈ enqueueAll ([] : List (Item T)) xs, readyB now y = true := by
    intro y hy
    obtain ⟨p, hp, rfl⟩ := mem_enqueueAll_nil hy
    exact hready p hp
  obtain ⟨hperm, hpw⟩ := drain_spec now xs.length (enqueueAll [] xs) hlen hready'
  have hmapeq : (enqueueAll ([] : List (Item T)) xs).map
      (fun it => (it.inner, it.expiration)) = xs.reverse := by
    rw [enqueueAll_eq]
    simp only [List.append_nil, List.map_reverse, List.map_map]
    have hcomp : ((fun it : Item T => (it.inner, it.expiration)) ∘
        fun p : T × Option Nat => Item.mk p.2 p.1) = id := funext fun p => rfl
    rw [hcomp, List.map_id]
  refine ⟨(hmapeq ▸ hperm).trans xs.reverse_perm, ?_, ?_⟩
  · exact List.pairwise_map.mpr (hpw.imp fun h => optLtB_of_itemLtB_false h)
  · refine hpw.imp fun h hb => ?_
    have ho := optLtB_of_itemLtB_false h
    rw [hb] at ho
    exact eq_none_of_optLtB_none ho

/-- C2 witness: three entries due at `Some 3`, `None`, `Some 1`, drained at
`now = 10`. -/
theorem dequeue_order_witness :
    (∀ p ∈ ([(2, some 3), (5, none), (0, some 1)] : List (Nat × Option Nat)),
      readyPairB 10 p = true) ∧
    (drain 3 10 (enqueueAll []
        ([(2, some 3), (5, none), (0, some 1)] : List (Nat × Option Nat)))).Perm
      [(2, some 3), (5, none), (0, some 1)] ∧
    List.Sorted effLe ((drain 3 10 (enqueueAll []
        ([(2, some 3), (5, none), (0, some 1)] : List (Nat × Option Nat)))).map
      Prod.snd) ∧
    List.Pairwise (fun a b => b.2 = none → a.2 = none)
      (drain 3 10 (enqueueAll []
        ([(2, some 3), (5, none), (0, some 1)] : List (Nat × Option Nat)))) :=
  ⟨by decide, dequeue_order 10 [(2, some 3), (5, none), (0, some 1)] (by decide)⟩

/-- C3 counterexample: payloads `0 < 1` enqueued with the same release time
`Some 5` and drained at `now = 10` come back as `1` then `0` — the larger
payload first — not in `T`'s ascending order as the claim states. -/
theorem c3_counterexample :
    drain 2 10 (enqueueAll []
        ([((0 : Nat), some 5), (1, some 5)] : List (Nat × Option Nat))) =
      [(1, some 5), (0, some 5)] ∧
    drain 2 10 (enqueueAll []
        ([((0 : Nat), some 5), (1, some 5)] : List (Nat × Option Nat))) ≠
      [(0, some 5), (1, some 5)] :=
  ⟨by decide, by decide⟩

/-- C3 (amended): among dequeued entries that share the same effective
release time, the payloads come back in the **reverse** of `T`'s order —
for any two tied entries, the larger payload is returned first.  (Only the
`expiration` field of `Item` is wrapped in `Reverse`, so the max-heap
breaks key ties by the largest payload.) -/
theorem dequeue_tie_break (now : Nat) (xs : List (T × Option Nat))
    (hready : ∀ p ∈ xs, readyPairB now p = true) :
    List.Pairwise (fun a b => a.2 = b.2 → b.1 ≤ a.1)
      (drain xs.length now (enqueueAll [] xs)) := by
  have hlen : (enqueueAll ([] : List (Item T)) xs).length = xs.length :=
    length_enqueueAll_nil xs
  have hready' : ∀ y ∈ enqueueAll ([] : List (Item T)) xs, readyB now y = true := by
    intro y hy
    obtain ⟨p, hp, rfl⟩ := mem_enqueueAll_nil hy
    exact hready p hp
  obtain ⟨hperm, hpw⟩ := drain_spec now xs.length (enqueueAll [] xs) hlen hready'
  exact hpw.imp fun h he => inner_le_of_itemLtB_false h he

/-- C3 witness: the tied pair `(0, Some 5)`, `(1, Some 5)` drained at
`now = 10` satisfies the descending-payload tie-break property. -/
theorem dequeue_tie_break_witness :
    (∀ p ∈ ([(0, some 5), (1, some 5)] : List (Nat × Option Nat)),
      readyPairB 10 p = true) ∧
    List.Pairwise (fun a b => a.2 = b.2 → b.1 ≤ a.1)
      (drain 2 10 (enqueueAll []
        ([(0, some 5), (1, some 5)] : List (Nat × Option Nat)))) :=
  ⟨by decide, dequeue_tie_break 10 [(0, some 5), (1, some 5)] (by decide)⟩

/-- C10 witness: popping the single entry `(7, Some 1)` at `now = 5`
returns its payload and stored release time and leaves the rest of the
store (empty here) intact. -/
theorem peek_inner_ok_frame_witness :
    peek_inner 5 ([⟨some 1, 7⟩] : List (Item Nat)) = (Except.ok (7, some 1), []) ∧
    ∃ m : Item Nat, heapPop ([⟨some 1, 7⟩] : List (Item Nat)) = some (m, []) ∧
      m.inner = 7 ∧ m.expiration = some 1 ∧
      ([⟨some 1, 7⟩] : List (Item Nat)).Perm (m :: []) ∧
      ∀ y ∈ ([⟨some 1, 7⟩] : List (Item Nat)), itemLtB m y = false :=
  ⟨rfl, @peek_inner_ok_frame Nat _ 5 [⟨some 1, 7⟩] [] 7 (some 1) rfl⟩

end TimedQueue
